import Mathlib

/-!
# Verification of the `noel` gift-exchange program

Shallow embedding of the two scripts of the repository:

* `noel.py` — exhaustive search over all permutations of the participant
  list, filtering out permutations that violate the constraints
  (self-gifts, forbidden groups, forbidden transactions), then choosing
  one valid solution at random.
* `tirage_noel.py` — randomized retry search: repeatedly build a random
  candidate assignment giver by giver and accept the first candidate that
  respects the forbidden-group constraint.

Python's random source is modelled by explicit `pick` functions supplying
arbitrary indices (reduced modulo the size of the pool they index into),
so theorems about the searches hold for every possible sequence of random
draws.  Python `set` values are modelled as deduplicated lists.
-/

namespace Noel

/-- A association between a gift giver and a gift receiver
(`Transaction` dataclass of `noel.py`). -/
structure Transaction where
  giver : String
  receiver : String
deriving DecidableEq

/-- A configuration as returned by `load_configuration`:
participants, forbidden groups, forbidden transactions. -/
def Config : Type := List String × List (List String) × List Transaction

/-- `no_forbidden_group` of `noel.py`: true iff no transaction of the
solution has both its giver and its receiver inside one forbidden group. -/
def no_forbidden_group (solution : List Transaction) (groups : List (List String)) : Bool :=
  solution.all fun t =>
    groups.all fun group =>
      !(decide (t.giver ∈ group) && decide (t.receiver ∈ group))

/-- `no_forbidden_transaction` of `noel.py`: true iff no transaction of the
solution coincides (same giver and same receiver) with a forbidden one. -/
def no_forbidden_transaction (solution forbidden_transactions : List Transaction) : Bool :=
  solution.all fun t =>
    forbidden_transactions.all fun ft =>
      !(decide (t.giver = ft.giver) && decide (t.receiver = ft.receiver))

/-- `give_to_himself` of `noel.py`: true iff some participant gives a gift
to themself. -/
def give_to_himself (solution : List Transaction) : Bool :=
  solution.any fun t => decide (t.giver = t.receiver)

/-- The solution induced by a permutation `receivers` of the participant
list: `[Transaction(participants[i], receivers[i]) for i in range(len(participants))]`. -/
def mkSolution (participants receivers : List String) : List Transaction :=
  List.zipWith Transaction.mk participants receivers

/-- The acceptance test applied by `find_solution` to each candidate. -/
def valid_solution (config : Config) (solution : List Transaction) : Bool :=
  !give_to_himself solution
    && no_forbidden_group solution config.2.1
    && no_forbidden_transaction solution config.2.2

/-- `find_solution` of `noel.py`.  The permutation iterator is modelled by
the list of permutations not yet consumed; on success the function returns
the solution found together with the remaining iterator state, and `none`
models `NoMorePotentialSolutionException`. -/
def find_solution (config : Config) :
    List (List String) → Option (List Transaction × List (List String))
  | [] => none
  | receivers :: rest =>
    let solution := mkSolution config.1 receivers
    if valid_solution config solution then some (solution, rest)
    else find_solution config rest

/-- The collecting loop of `get_solutions` of `noel.py`, run over the
remaining iterator state: keep calling `find_solution` until it signals
exhaustion, accumulating the solutions in order. -/
def get_solutions_from (config : Config) : List (List String) → List (List Transaction)
  | [] => []
  | receivers :: rest =>
    let solution := mkSolution config.1 receivers
    if valid_solution config solution then solution :: get_solutions_from config rest
    else get_solutions_from config rest

/-- `get_solutions` of `noel.py`: iterate over
`itertools.permutations(participants)` and collect every valid solution.
`List.permutations'` enumerates exactly the same candidates as
`itertools.permutations` (every permutation of the participant list,
each once for duplicate-free input); the enumeration order is
implementation-defined in both cases. -/
def get_solutions (config : Config) : List (List Transaction) :=
  get_solutions_from config config.1.permutations'

/-- The outcome of `main` of `noel.py` after the configuration was loaded:
if no solution exists raise `ChristmasException('No solutions found')`,
otherwise display a randomly chosen solution.  `choice` models the random
draw of `random.choice`. -/
def noel_main (config : Config) (choice : Nat) : Except String (List Transaction) :=
  let solutions := get_solutions config
  if h : solutions.length = 0 then Except.error "No solutions found"
  else Except.ok (solutions.get ⟨choice % solutions.length, Nat.mod_lt _ (Nat.pos_of_ne_zero h)⟩)

/-- The error message built by `spelling_error` of `noel.py`. -/
def spelling_error (name forbidden_kind : String) : String :=
  s!"Bad configuration : {name} is mentioned in the forbidden {forbidden_kind}, but {name} is not a participant"

/-- The inner loop of the group check of `load_configuration`:
`for name in group: if name not in participants: raise spelling_error(name, 'groups')`,
returning the offending name if any. -/
def check_names_in_group (participants : List String) : List String → Option String
  | [] => none
  | name :: rest =>
    if participants.contains name then check_names_in_group participants rest
    else some name

/-- The outer loop of the group check of `load_configuration`:
`for group in forbidden_groups: ...`. -/
def check_group_names (participants : List String) : List (List String) → Option String
  | [] => none
  | group :: rest =>
    match check_names_in_group participants group with
    | some name => some name
    | none => check_group_names participants rest

/-- The transaction check of `load_configuration`: for each forbidden
transaction, check the giver then the receiver against the participant
list, returning the offending name if any. -/
def check_transaction_names (participants : List String) : List Transaction → Option String
  | [] => none
  | t :: rest =>
    if !participants.contains t.giver then some t.giver
    else if !participants.contains t.receiver then some t.receiver
    else check_transaction_names participants rest

/-- The referential-integrity part of `load_configuration` of `noel.py`
(the YAML parsing and schema check are I/O glue outside the model): check
the forbidden groups, then the forbidden transactions, raising
`spelling_error` at the first unknown name, and otherwise return the three
collections unchanged. -/
def load_configuration (participants : List String) (forbidden_groups : List (List String))
    (forbidden_transactions : List Transaction) :
    Except String (List String × List (List String) × List Transaction) :=
  match check_group_names participants forbidden_groups with
  | some name => Except.error (spelling_error name "groups")
  | none =>
    match check_transaction_names participants forbidden_transactions with
    | some name => Except.error (spelling_error name "transactions")
    | none => Except.ok (participants, forbidden_groups, forbidden_transactions)

end Noel

namespace Tirage

/-- `uses_forbidden_group` of `tirage_noel.py`; a solution is the list of
(giver, receiver) items of the solution dict, in insertion order. -/
def uses_forbidden_group (solution : List (String × String)) (groups : List (List String)) : Bool :=
  solution.any fun t =>
    groups.any fun group =>
      decide (t.1 ∈ group) && decide (t.2 ∈ group)

/-- The giver loop of `try_generate_random_solution` of `tirage_noel.py`:
`givers` are the givers not yet processed, `receivers` the receivers not
yet assigned (both Python sets, modelled as duplicate-free lists).  For
each giver the pool is `receivers` minus the giver; if it is empty the
whole attempt aborts (`BadRandomSolutionException`, modelled as `none`),
otherwise `randrange` picks an index into the pool — modelled by the
arbitrary stream `pick`, reduced modulo the pool size — and the chosen
receiver is removed from `receivers`. -/
def try_generate (pick : Nat → Nat) :
    List String → List String → Nat → Option (List (String × String))
  | [], _, _ => some []
  | giver :: rest, receivers, k =>
    let potential := receivers.erase giver
    if h : potential.length = 0 then none
    else
      let receiver := potential.get ⟨pick k % potential.length, Nat.mod_lt _ (Nat.pos_of_ne_zero h)⟩
      match try_generate pick rest (receivers.erase receiver) (k + 1) with
      | none => none
      | some sol => some ((giver, receiver) :: sol)

/-- `try_generate_random_solution` of `tirage_noel.py`:
`givers = set(participants)`, `receivers = set(participants)`, then the
giver loop starting from an empty solution dict. -/
def try_generate_random_solution (participants : List String) (pick : Nat → Nat) :
    Option (List (String × String)) :=
  try_generate pick participants.dedup participants.dedup 0

/-- The retry loop of `main` of `tirage_noel.py`: try to generate a random
solution; on `BadRandomSolutionException`, or when the candidate uses a
forbidden group, try again with fresh random draws.  `picks a` is the
random stream of attempt `a`, and `fuel` bounds how many attempts the
model unfolds (the Python loop is unbounded). -/
def tirage_main_loop (participants : List String) (groups : List (List String))
    (picks : Nat → Nat → Nat) : Nat → Nat → Option (List (String × String))
  | _, 0 => none
  | attempt, fuel + 1 =>
    match try_generate_random_solution participants (picks attempt) with
    | none => tirage_main_loop participants groups picks (attempt + 1) fuel
    | some sol =>
      if uses_forbidden_group sol groups then
        tirage_main_loop participants groups picks (attempt + 1) fuel
      else some sol

end Tirage

namespace Noel

theorem no_forbidden_group_eq_true {sol : List Transaction} {gs : List (List String)} :
    no_forbidden_group sol gs = true ↔
      ∀ t ∈ sol, ∀ g ∈ gs, ¬(t.giver ∈ g ∧ t.receiver ∈ g) := by
  simp only [no_forbidden_group, List.all_eq_true, Bool.not_eq_true', Bool.and_eq_false_iff,
    decide_eq_false_iff_not]
  constructor
  · intro h t ht g hg hc
    rcases h t ht g hg with h' | h'
    · exact h' hc.1
    · exact h' hc.2
  · intro h t ht g hg
    by_cases h1 : t.giver ∈ g
    · exact Or.inr fun h2 => h t ht g hg ⟨h1, h2⟩
    · exact Or.inl h1

theorem no_forbidden_transaction_eq_true {sol fts : List Transaction} :
    no_forbidden_transaction sol fts = true ↔
      ∀ t ∈ sol, ∀ ft ∈ fts, ¬(t.giver = ft.giver ∧ t.receiver = ft.receiver) := by
  simp only [no_forbidden_transaction, List.all_eq_true, Bool.not_eq_true', Bool.and_eq_false_iff,
    decide_eq_false_iff_not]
  constructor
  · intro h t ht ft hft hc
    rcases h t ht ft hft with h' | h'
    · exact h' hc.1
    · exact h' hc.2
  · intro h t ht ft hft
    by_cases h1 : t.giver = ft.giver
    · exact Or.inr fun h2 => h t ht ft hft ⟨h1, h2⟩
    · exact Or.inl h1

theorem give_to_himself_eq_false {sol : List Transaction} :
    give_to_himself sol = false ↔ ∀ t ∈ sol, t.giver ≠ t.receiver := by
  simp [give_to_himself]

theorem valid_solution_eq_true {c : Config} {sol : List Transaction} :
    valid_solution c sol = true ↔
      give_to_himself sol = false ∧ no_forbidden_group sol c.2.1 = true ∧
        no_forbidden_transaction sol c.2.2 = true := by
  simp [valid_solution, Bool.and_eq_true, Bool.not_eq_true']
  tauto

theorem mem_get_solutions_from {c : Config} {perms : List (List String)}
    {sol : List Transaction} :
    sol ∈ get_solutions_from c perms ↔
      ∃ rs ∈ perms, sol = mkSolution c.1 rs ∧ valid_solution c (mkSolution c.1 rs) = true := by
  induction perms with
  | nil => simp [get_solutions_from]
  | cons rs rest ih =>
    by_cases h : valid_solution c (mkSolution c.1 rs) = true
    · simp only [get_solutions_from, if_pos h, List.mem_cons, ih]
      constructor
      · rintro (rfl | ⟨rs', hrs', rfl, hv⟩)
        · exact ⟨rs, Or.inl rfl, rfl, h⟩
        · exact ⟨rs', Or.inr hrs', rfl, hv⟩
      · rintro ⟨rs', hmem, rfl, hv⟩
        rcases hmem with rfl | hmem
        · exact Or.inl rfl
        · exact Or.inr ⟨rs', hmem, rfl, hv⟩
    · simp only [get_solutions_from, if_neg h, ih]
      constructor
      · rintro ⟨rs', hrs', rfl, hv⟩
        exact ⟨rs', List.mem_cons_of_mem _ hrs', rfl, hv⟩
      · rintro ⟨rs', hmem, rfl, hv⟩
        rcases List.mem_cons.mp hmem with rfl | hmem
        · exact absurd hv h
        · exact ⟨rs', hmem, rfl, hv⟩

theorem find_solution_eq_some {c : Config} {perms rest : List (List String)}
    {sol : List Transaction} (h : find_solution c perms = some (sol, rest)) :
    ∃ rs ∈ perms, sol = mkSolution c.1 rs ∧ valid_solution c (mkSolution c.1 rs) = true := by
  induction perms with
  | nil => simp [find_solution] at h
  | cons rs tl ih =>
    by_cases hv : valid_solution c (mkSolution c.1 rs) = true
    · simp only [find_solution, if_pos hv] at h
      have h' := Option.some.inj h
      exact ⟨rs, List.mem_cons_self .., (congrArg Prod.fst h').symm, hv⟩
    · simp only [find_solution, if_neg hv] at h
      obtain ⟨rs', hmem, heq, hv'⟩ := ih h
      exact ⟨rs', List.mem_cons_of_mem _ hmem, heq, hv'⟩

theorem mkSolution_map_giver : ∀ {ps rs : List String}, rs.length = ps.length →
    (mkSolution ps rs).map Transaction.giver = ps := by
  intro ps
  induction ps with
  | nil => intro rs _; simp [mkSolution]
  | cons p tl ih =>
    intro rs h
    cases rs with
    | nil => simp at h
    | cons r rtl =>
      have h' : rtl.length = tl.length := by simpa using h
      rw [show mkSolution (p :: tl) (r :: rtl) = ⟨p, r⟩ :: mkSolution tl rtl from rfl,
        List.map_cons, ih h']

theorem mkSolution_map_receiver : ∀ {ps rs : List String}, rs.length = ps.length →
    (mkSolution ps rs).map Transaction.receiver = rs := by
  intro ps
  induction ps with
  | nil =>
    intro rs h
    cases rs with
    | nil => simp [mkSolution]
    | cons r rtl => simp at h
  | cons p tl ih =>
    intro rs h
    cases rs with
    | nil => simp at h
    | cons r rtl =>
      have h' : rtl.length = tl.length := by simpa using h
      rw [show mkSolution (p :: tl) (r :: rtl) = ⟨p, r⟩ :: mkSolution tl rtl from rfl,
        List.map_cons, ih h']

end Noel

namespace Tirage

theorem uses_forbidden_group_eq_false {sol : List (String × String)} {gs : List (List String)} :
    uses_forbidden_group sol gs = false ↔
      ∀ t ∈ sol, ∀ g ∈ gs, ¬(t.1 ∈ g ∧ t.2 ∈ g) := by
  unfold uses_forbidden_group
  rw [List.any_eq_false]
  constructor
  · intro h t ht g hg hc
    exact h t ht (List.any_eq_true.mpr ⟨g, hg, by simp [hc.1, hc.2]⟩)
  · intro h t ht hany
    obtain ⟨g, hg, hc⟩ := List.any_eq_true.mp hany
    simp only [Bool.and_eq_true, decide_eq_true_eq] at hc
    exact h t ht g hg hc

theorem try_generate_eq_some : ∀ {givers receivers : List String} {pick : Nat → Nat} {k : Nat}
    {sol : List (String × String)},
    receivers.Nodup → givers.length = receivers.length →
    try_generate pick givers receivers k = some sol →
    sol.map Prod.fst = givers ∧ (sol.map Prod.snd).Perm receivers ∧ ∀ t ∈ sol, t.1 ≠ t.2 := by
  intro givers
  induction givers with
  | nil =>
    intro receivers pick k sol hnd hlen h
    simp only [try_generate, Option.some.injEq] at h
    subst h
    have hrecv : receivers = [] := List.length_eq_zero.mp hlen.symm
    subst hrecv
    simp
  | cons g rest ih =>
    intro receivers pick k sol hnd hlen h
    simp only [try_generate] at h
    by_cases hemp : (receivers.erase g).length = 0
    · rw [dif_pos hemp] at h
      exact absurd h (by simp)
    · rw [dif_neg hemp] at h
      have hrmem_pot : (receivers.erase g).get
          ⟨pick k % (receivers.erase g).length,
            Nat.mod_lt _ (Nat.pos_of_ne_zero hemp)⟩ ∈ receivers.erase g :=
        List.get_mem _ _ _
      generalize hrdef : (receivers.erase g).get
          ⟨pick k % (receivers.erase g).length,
            Nat.mod_lt _ (Nat.pos_of_ne_zero hemp)⟩ = r at h hrmem_pot
      have hrmem : r ∈ receivers := List.mem_of_mem_erase hrmem_pot
      have hrne : r ≠ g := ((hnd.mem_erase_iff).mp hrmem_pot).1
      cases hrec : try_generate pick rest (receivers.erase r) (k + 1) with
      | none => rw [hrec] at h; exact absurd h (by simp)
      | some sol' =>
        rw [hrec] at h
        simp only [Option.some.injEq] at h
        subst h
        have hnd' : (receivers.erase r).Nodup := hnd.erase r
        have hlen' : rest.length = (receivers.erase r).length := by
          have h1 := List.length_erase_of_mem hrmem
          have h2 : rest.length + 1 = receivers.length := by simpa using hlen
          omega
        obtain ⟨ih1, ih2, ih3⟩ := ih hnd' hlen' hrec
        refine ⟨by simpa using ih1, ?_, ?_⟩
        · exact ((ih2.cons r).trans (List.perm_cons_erase hrmem).symm)
        · intro t ht
          rcases List.mem_cons.mp ht with rfl | ht
          · exact fun hc => hrne hc.symm
          · exact ih3 t ht

theorem try_generate_random_solution_spec {ps : List String} {pick : Nat → Nat}
    {sol : List (String × String)} (hnd : ps.Nodup)
    (h : try_generate_random_solution ps pick = some sol) :
    sol.map Prod.fst = ps ∧ (sol.map Prod.snd).Perm ps ∧ ∀ t ∈ sol, t.1 ≠ t.2 := by
  rw [try_generate_random_solution, List.dedup_eq_self.mpr hnd] at h
  exact try_generate_eq_some hnd rfl h

theorem tirage_main_loop_eq_some {ps : List String} {gs : List (List String)}
    {picks : Nat → Nat → Nat} {sol : List (String × String)} :
    ∀ {a fuel : Nat}, tirage_main_loop ps gs picks a fuel = some sol →
    ∃ b, try_generate_random_solution ps (picks b) = some sol ∧
      uses_forbidden_group sol gs = false := by
  intro a fuel
  induction fuel generalizing a with
  | zero => simp [tirage_main_loop]
  | succ f ih =>
    intro h
    simp only [tirage_main_loop] at h
    split at h
    · exact ih h
    · rename_i cand hg
      split at h
      · exact ih h
      · rename_i hu
        obtain rfl := Option.some.inj h
        exact ⟨a, hg, Bool.not_eq_true _ ▸ hu⟩

end Tirage

/-- **C1**: every Solution produced by a search strategy — the transaction
list returned by the exhaustive search's `find_solution`, or the
assignment returned by the random strategy's `try_generate_random_solution`
when it succeeds — is a bijection from the participant set to itself with
no fixed points: every participant appears exactly once as a giver,
exactly once as a receiver, and nobody gives to themself.  `perms` is the
state of the permutation iterator (each entry a permutation of the
participants) and `pick` an arbitrary stream of random draws. -/
theorem produced_solutions_bijective_no_fixed_point
    (ps : List String) (gs : List (List String)) (ts : List Noel.Transaction)
    (perms rest : List (List String)) (sol : List Noel.Transaction)
    (pick : Nat → Nat) (rsol : List (String × String))
    (hnd : ps.Nodup) (hperms : ∀ rs ∈ perms, rs.Perm ps) :
    (Noel.find_solution (ps, gs, ts) perms = some (sol, rest) →
      sol.map Noel.Transaction.giver = ps ∧ (sol.map Noel.Transaction.receiver).Perm ps ∧
      (∀ p ∈ ps, (sol.map Noel.Transaction.giver).count p = 1 ∧
        (sol.map Noel.Transaction.receiver).count p = 1) ∧
      ∀ t ∈ sol, t.giver ≠ t.receiver) ∧
    (Tirage.try_generate_random_solution ps pick = some rsol →
      rsol.map Prod.fst = ps ∧ (rsol.map Prod.snd).Perm ps ∧
      (∀ p ∈ ps, (rsol.map Prod.fst).count p = 1 ∧ (rsol.map Prod.snd).count p = 1) ∧
      ∀ t ∈ rsol, t.1 ≠ t.2) := by
  constructor
  · intro h
    obtain ⟨rs, hmem, rfl, hv⟩ := Noel.find_solution_eq_some h
    have hperm := hperms rs hmem
    have hlen : rs.length = ps.length := hperm.length_eq
    have hg := Noel.mkSolution_map_giver hlen
    have hr := Noel.mkSolution_map_receiver hlen
    obtain ⟨hself, -, -⟩ := Noel.valid_solution_eq_true.mp hv
    refine ⟨hg, ?_, ?_, Noel.give_to_himself_eq_false.mp hself⟩
    · show (List.map Noel.Transaction.receiver (Noel.mkSolution ps rs)).Perm ps
      rw [hr]
      exact hperm
    · intro p hp
      refine ⟨?_, ?_⟩
      · show (List.map Noel.Transaction.giver (Noel.mkSolution ps rs)).count p = 1
        rw [hg]
        exact List.count_eq_one_of_mem hnd hp
      · show (List.map Noel.Transaction.receiver (Noel.mkSolution ps rs)).count p = 1
        rw [hr, hperm.count_eq]
        exact List.count_eq_one_of_mem hnd hp
  · intro h
    obtain ⟨h1, h2, h3⟩ := Tirage.try_generate_random_solution_spec hnd h
    refine ⟨h1, h2, fun p hp => ⟨?_, ?_⟩, h3⟩
    · rw [h1]
      exact List.count_eq_one_of_mem hnd hp
    · rw [h2.count_eq]
      exact List.count_eq_one_of_mem hnd hp

theorem produced_solutions_bijective_no_fixed_point_witness :
    (["Alice", "Bob"] : List String).Nodup ∧
    (∀ rs ∈ [["Bob", "Alice"]], rs.Perm ["Alice", "Bob"]) ∧
    ([⟨"Alice", "Bob"⟩, ⟨"Bob", "Alice"⟩] : List Noel.Transaction).map Noel.Transaction.giver
      = ["Alice", "Bob"] ∧
    ([("Alice", "Bob"), ("Bob", "Alice")] : List (String × String)).map Prod.fst
      = ["Alice", "Bob"] := by
  have h := produced_solutions_bijective_no_fixed_point
    ["Alice", "Bob"] [] [] [["Bob", "Alice"]] [] [⟨"Alice", "Bob"⟩, ⟨"Bob", "Alice"⟩]
    (fun _ => 0) [("Alice", "Bob"), ("Bob", "Alice")]
    (by decide) (by decide)
  exact ⟨by decide, by decide, (h.1 (by decide)).1, (h.2 (by decide)).1⟩

/-- **C2**: every Solution produced by a search strategy satisfies the
constraints its strategy checks: for the exhaustive search no transaction
has giver and receiver in one forbidden group and no transaction equals a
forbidden transaction of the configuration; for the random strategy (whose
configurations have no forbidden transactions) no accepted transaction has
both ends in one forbidden group. -/
theorem produced_solutions_respect_constraints
    (ps : List String) (gs : List (List String)) (ts : List Noel.Transaction)
    (sol : List Noel.Transaction) (picks : Nat → Nat → Nat) (a fuel : Nat)
    (rsol : List (String × String)) :
    (sol ∈ Noel.get_solutions (ps, gs, ts) →
      (∀ t ∈ sol, ∀ g ∈ gs, ¬(t.giver ∈ g ∧ t.receiver ∈ g)) ∧
      (∀ t ∈ sol, ∀ ft ∈ ts, ¬(t.giver = ft.giver ∧ t.receiver = ft.receiver))) ∧
    (Tirage.tirage_main_loop ps gs picks a fuel = some rsol →
      ∀ t ∈ rsol, ∀ g ∈ gs, ¬(t.1 ∈ g ∧ t.2 ∈ g)) := by
  constructor
  · intro h
    obtain ⟨rs, hmem, rfl, hv⟩ := Noel.mem_get_solutions_from.mp h
    obtain ⟨-, hgrp, htr⟩ := Noel.valid_solution_eq_true.mp hv
    exact ⟨Noel.no_forbidden_group_eq_true.mp hgrp,
      Noel.no_forbidden_transaction_eq_true.mp htr⟩
  · intro h
    obtain ⟨b, -, hu⟩ := Tirage.tirage_main_loop_eq_some h
    exact Tirage.uses_forbidden_group_eq_false.mp hu

theorem produced_solutions_respect_constraints_witness :
    (∀ t ∈ ([⟨"A", "C"⟩, ⟨"B", "A"⟩, ⟨"C", "B"⟩] : List Noel.Transaction),
      ∀ g ∈ [["B", "D"]], ¬(t.giver ∈ g ∧ t.receiver ∈ g)) ∧
    (∀ t ∈ [("A", "C"), ("B", "A"), ("C", "B")], ∀ g ∈ [["B", "D"]],
      ¬(t.1 ∈ g ∧ t.2 ∈ g)) := by
  have h := produced_solutions_respect_constraints
    ["A", "B", "C"] [["B", "D"]] [⟨"A", "B"⟩] [⟨"A", "C"⟩, ⟨"B", "A"⟩, ⟨"C", "B"⟩]
    (fun a _ => a) 0 2 [("A", "C"), ("B", "A"), ("C", "B")]
  exact ⟨(h.1 (by decide)).1, h.2 (by decide)⟩

/-- **C3**: the exhaustive search examines at most factorial-of-N
candidate permutations (the iterator it consumes has exactly N! entries),
and when no permutation is valid the program signals the terminal
`'No solutions found'` error instead of retrying. -/
theorem exhaustive_search_bounded_and_terminal (c : Noel.Config) (choice : Nat) :
    c.1.permutations'.length = Nat.factorial c.1.length ∧
    (Noel.get_solutions c = [] →
      Noel.noel_main c choice = Except.error "No solutions found") := by
  constructor
  · calc c.1.permutations'.length = c.1.permutations.length :=
          (List.permutations_perm_permutations' c.1).length_eq.symm
      _ = Nat.factorial c.1.length := List.length_permutations c.1
  · intro h
    simp [Noel.noel_main, h]

theorem exhaustive_search_bounded_and_terminal_witness :
    Noel.get_solutions (["A", "B"], [["A", "B"]], []) = [] ∧
    Noel.noel_main (["A", "B"], [["A", "B"]], []) 0 = Except.error "No solutions found" :=
  ⟨by decide,
    (exhaustive_search_bounded_and_terminal (["A", "B"], [["A", "B"]], []) 0).2 (by decide)⟩

/-- **C5** (counterexample): for participants `[A, B, C]` with forbidden
group `[A, B]`, the exhaustive search does *not* yield exactly the one
solution `A→C, B→A, C→B` claimed by the specification: that candidate
contains the transaction `B→A` whose two ends lie in the forbidden group,
so it is rejected like every other candidate. -/
theorem abc_example_unique_solution_refuted :
    ¬ ((Noel.get_solutions (["A", "B", "C"], [["A", "B"]], [])).length = 1 ∧
      [⟨"A", "C"⟩, ⟨"B", "A"⟩, ⟨"C", "B"⟩] ∈
        Noel.get_solutions (["A", "B", "C"], [["A", "B"]], [])) := by
  decide

/-- **C5** (amended): for participants `[A, B, C]`, forbidden groups
`[[A, B]]` and no forbidden transactions, the exhaustive search collecting
all solutions yields no solution at all: of the two derangements of three
participants, one contains `A→B` and the other contains `B→A`, and each of
those transactions has both ends inside the forbidden group. -/
theorem abc_example_yields_no_solution :
    Noel.get_solutions (["A", "B", "C"], [["A", "B"]], []) = [] := by
  decide

/-- **C9**: forbidden transactions are directional: `no_forbidden_transaction`
rejects a solution exactly when some transaction agrees with some forbidden
pair on both the giver and the receiver; a solution containing only the
reversed transaction `(r, g)` of a forbidden pair `(g, r)` is not rejected,
while one containing `(g, r)` itself is. -/
theorem forbidden_transactions_directional
    (sol fts : List Noel.Transaction) (g r : String) (hgr : g ≠ r) :
    (Noel.no_forbidden_transaction sol fts = false ↔
      ∃ t ∈ sol, ∃ ft ∈ fts, t.giver = ft.giver ∧ t.receiver = ft.receiver) ∧
    Noel.no_forbidden_transaction [⟨r, g⟩] [⟨g, r⟩] = true ∧
    Noel.no_forbidden_transaction [⟨g, r⟩] [⟨g, r⟩] = false := by
  refine ⟨?_, ?_, ?_⟩
  · rw [← Bool.not_eq_true, Noel.no_forbidden_transaction_eq_true]
    push_neg
    simp only [not_not]
  · simp [Noel.no_forbidden_transaction, Ne.symm hgr]
  · simp [Noel.no_forbidden_transaction]

theorem forbidden_transactions_directional_witness :
    ("Ana" : String) ≠ "Bea" ∧
    Noel.no_forbidden_transaction [⟨"Bea", "Ana"⟩] [⟨"Ana", "Bea"⟩] = true :=
  ⟨by decide, (forbidden_transactions_directional [] [] "Ana" "Bea" (by decide)).2.1⟩

/-- **C10**: for the empty participant list with no constraints, the
exhaustive search returns exactly one solution — the empty transaction
list — and `main` accepts and displays it instead of reporting
`'No solutions found'`. -/
theorem empty_participants_single_empty_solution :
    Noel.get_solutions (([], [], []) : Noel.Config) = [[]] ∧
    ∀ choice : Nat, Noel.noel_main ([], [], []) choice = Except.ok [] := by
  refine ⟨rfl, fun choice => ?_⟩
  simp [Noel.noel_main, Nat.mod_one,
    show Noel.get_solutions (([], [], []) : Noel.Config) = [[]] from rfl]

namespace Noel

theorem check_names_in_group_eq_none {ps : List String} : ∀ {g : List String},
    check_names_in_group ps g = none ↔ ∀ n ∈ g, n ∈ ps := by
  intro g
  induction g with
  | nil => simp [check_names_in_group]
  | cons n rest ih =>
    by_cases hn : n ∈ ps
    · simp [check_names_in_group, hn, ih]
    · simp [check_names_in_group, hn]

theorem check_names_in_group_eq_some {ps : List String} {n : String} : ∀ {g : List String},
    check_names_in_group ps g = some n → n ∈ g ∧ n ∉ ps := by
  intro g
  induction g with
  | nil => simp [check_names_in_group]
  | cons m rest ih =>
    by_cases hm : m ∈ ps
    · rw [show check_names_in_group ps (m :: rest) = check_names_in_group ps rest from by
        simp [check_names_in_group, hm]]
      intro h
      obtain ⟨h1, h2⟩ := ih h
      exact ⟨List.mem_cons_of_mem _ h1, h2⟩
    · rw [show check_names_in_group ps (m :: rest) = some m from by
        simp [check_names_in_group, hm]]
      intro h
      obtain rfl := Option.some.inj h
      exact ⟨List.mem_cons_self .., hm⟩

theorem check_group_names_eq_none {ps : List String} : ∀ {gs : List (List String)},
    check_group_names ps gs = none ↔ ∀ g ∈ gs, ∀ n ∈ g, n ∈ ps := by
  intro gs
  induction gs with
  | nil => simp [check_group_names]
  | cons g rest ih =>
    cases hg : check_names_in_group ps g with
    | some m =>
      simp only [check_group_names, hg]
      obtain ⟨h1, h2⟩ := check_names_in_group_eq_some hg
      constructor
      · intro h
        exact absurd h (by simp)
      · intro h
        exact absurd (h g (List.mem_cons_self ..) m h1) h2
    | none =>
      simp only [check_group_names, hg]
      rw [ih]
      simp only [List.forall_mem_cons]
      exact ⟨fun h => ⟨check_names_in_group_eq_none.mp hg, h⟩, And.right⟩

theorem check_group_names_eq_some {ps : List String} {n : String} :
    ∀ {gs : List (List String)},
    check_group_names ps gs = some n → n ∉ ps ∧ ∃ g ∈ gs, n ∈ g := by
  intro gs
  induction gs with
  | nil => simp [check_group_names]
  | cons g rest ih =>
    cases hg : check_names_in_group ps g with
    | some m =>
      simp only [check_group_names, hg]
      intro h
      obtain rfl := Option.some.inj h
      obtain ⟨h1, h2⟩ := check_names_in_group_eq_some hg
      exact ⟨h2, g, List.mem_cons_self .., h1⟩
    | none =>
      simp only [check_group_names, hg]
      intro h
      obtain ⟨h1, g', hg', hn⟩ := ih h
      exact ⟨h1, g', List.mem_cons_of_mem _ hg', hn⟩

theorem check_transaction_names_eq_none {ps : List String} : ∀ {ts : List Transaction},
    check_transaction_names ps ts = none ↔ ∀ t ∈ ts, t.giver ∈ ps ∧ t.receiver ∈ ps := by
  intro ts
  induction ts with
  | nil => simp [check_transaction_names]
  | cons t rest ih =>
    by_cases h1 : t.giver ∈ ps
    · by_cases h2 : t.receiver ∈ ps
      · rw [show check_transaction_names ps (t :: rest) = check_transaction_names ps rest from by
          simp [check_transaction_names, h1, h2], ih]
        simp [List.forall_mem_cons, h1, h2]
      · rw [show check_transaction_names ps (t :: rest) = some t.receiver from by
          simp [check_transaction_names, h1, h2]]
        constructor
        · intro h
          exact absurd h (by simp)
        · intro h
          exact absurd (h t (List.mem_cons_self ..)).2 h2
    · rw [show check_transaction_names ps (t :: rest) = some t.giver from by
        simp [check_transaction_names, h1]]
      constructor
      · intro h
        exact absurd h (by simp)
      · intro h
        exact absurd (h t (List.mem_cons_self ..)).1 h1

theorem check_transaction_names_eq_some {ps : List String} {n : String} :
    ∀ {ts : List Transaction},
    check_transaction_names ps ts = some n →
      n ∉ ps ∧ ∃ t ∈ ts, t.giver = n ∨ t.receiver = n := by
  intro ts
  induction ts with
  | nil => simp [check_transaction_names]
  | cons t rest ih =>
    by_cases h1 : t.giver ∈ ps
    · by_cases h2 : t.receiver ∈ ps
      · rw [show check_transaction_names ps (t :: rest) = check_transaction_names ps rest from by
          simp [check_transaction_names, h1, h2]]
        intro h
        obtain ⟨hnp, t', ht', hcase⟩ := ih h
        exact ⟨hnp, t', List.mem_cons_of_mem _ ht', hcase⟩
      · rw [show check_transaction_names ps (t :: rest) = some t.receiver from by
          simp [check_transaction_names, h1, h2]]
        intro h
        obtain rfl := Option.some.inj h
        exact ⟨h2, t, List.mem_cons_self .., Or.inr rfl⟩
    · rw [show check_transaction_names ps (t :: rest) = some t.giver from by
        simp [check_transaction_names, h1]]
      intro h
      obtain rfl := Option.some.inj h
      exact ⟨h1, t, List.mem_cons_self .., Or.inl rfl⟩


theorem check_names_in_group_eq_find {ps : List String} : ∀ {g : List String},
    check_names_in_group ps g = g.find? fun n => !ps.contains n := by
  intro g
  induction g with
  | nil => rfl
  | cons n rest ih =>
    cases hn : ps.contains n with
    | true =>
      have hmem : n ∈ ps := List.elem_iff.mp hn
      have hl : check_names_in_group ps (n :: rest) = check_names_in_group ps rest := by
        simp [check_names_in_group, hmem]
      rw [hl, ih, List.find?_cons_of_neg]
      simpa using hmem
    | false =>
      have hmem : n ∉ ps := by simpa using hn
      have hl : check_names_in_group ps (n :: rest) = some n := by
        simp [check_names_in_group, hmem]
      rw [hl, List.find?_cons_of_pos]
      simpa using hmem

theorem check_group_names_eq_find {ps : List String} : ∀ {gs : List (List String)},
    check_group_names ps gs = gs.flatten.find? fun n => !ps.contains n := by
  intro gs
  induction gs with
  | nil => rfl
  | cons g rest ih =>
    rw [show (g :: rest).flatten = g ++ rest.flatten from rfl, List.find?_append, ← ih,
      ← check_names_in_group_eq_find]
    cases hg : check_names_in_group ps g with
    | some n => simp [check_group_names, hg, Option.or]
    | none => simp [check_group_names, hg, Option.or]

theorem check_transaction_names_eq_find {ps : List String} : ∀ {ts : List Transaction},
    check_transaction_names ps ts =
      (ts.flatMap fun t => [t.giver, t.receiver]).find? fun n => !ps.contains n := by
  intro ts
  induction ts with
  | nil => rfl
  | cons t rest ih =>
    rw [show ((t :: rest).flatMap fun t => [t.giver, t.receiver])
        = t.giver :: t.receiver :: (rest.flatMap fun t => [t.giver, t.receiver]) from rfl]
    cases h1 : ps.contains t.giver with
    | false =>
      have hm1 : t.giver ∉ ps := by simpa using h1
      have hl : check_transaction_names ps (t :: rest) = some t.giver := by
        simp [check_transaction_names, hm1]
      rw [hl, List.find?_cons_of_pos]
      simpa using hm1
    | true =>
      have hm1 : t.giver ∈ ps := List.elem_iff.mp h1
      cases h2 : ps.contains t.receiver with
      | false =>
        have hm2 : t.receiver ∉ ps := by simpa using h2
        have hl : check_transaction_names ps (t :: rest) = some t.receiver := by
          simp [check_transaction_names, hm1, hm2]
        rw [hl, List.find?_cons_of_neg, List.find?_cons_of_pos]
        · simpa using hm2
        · simpa using hm1
      | true =>
        have hm2 : t.receiver ∈ ps := List.elem_iff.mp h2
        have hl : check_transaction_names ps (t :: rest) = check_transaction_names ps rest := by
          simp [check_transaction_names, hm1, hm2]
        rw [hl, ih, List.find?_cons_of_neg, List.find?_cons_of_neg]
        · simpa using hm2
        · simpa using hm1

end Noel

/-- **C6**: configuration validation succeeds returning the three
collections unchanged exactly when every name mentioned in a forbidden
group or forbidden transaction is a participant; otherwise it stops at the
first violation in the code's scan order — groups (in order, names within
each group in order) before transactions (in order, giver before
receiver) — and fails with the `spelling_error` message naming exactly
that first offending identifier and its context.  `List.find?` returns
the first element of a list satisfying the predicate, so the third and
fourth conjuncts pin the reported name to the first unknown name of the
group scan, or, when the groups are clean, of the transaction scan. -/
theorem load_configuration_spec
    (ps : List String) (gs : List (List String)) (ts : List Noel.Transaction) :
    (Noel.load_configuration ps gs ts = Except.ok (ps, gs, ts) ↔
      (∀ g ∈ gs, ∀ n ∈ g, n ∈ ps) ∧ (∀ t ∈ ts, t.giver ∈ ps ∧ t.receiver ∈ ps)) ∧
    (∀ out, Noel.load_configuration ps gs ts = Except.ok out → out = (ps, gs, ts)) ∧
    (∀ n, (gs.flatten.find? fun m => !ps.contains m) = some n →
      Noel.load_configuration ps gs ts = Except.error (Noel.spelling_error n "groups")) ∧
    ((gs.flatten.find? fun m => !ps.contains m) = none →
      ∀ n, ((ts.flatMap fun t => [t.giver, t.receiver]).find? fun m => !ps.contains m) = some n →
      Noel.load_configuration ps gs ts = Except.error (Noel.spelling_error n "transactions")) ∧
    (¬((∀ g ∈ gs, ∀ n ∈ g, n ∈ ps) ∧ (∀ t ∈ ts, t.giver ∈ ps ∧ t.receiver ∈ ps)) →
      ∃ n k, Noel.load_configuration ps gs ts = Except.error (Noel.spelling_error n k) ∧
        n ∉ ps ∧
        ((k = "groups" ∧ ∃ g ∈ gs, n ∈ g) ∨
         (k = "transactions" ∧ ∃ t ∈ ts, t.giver = n ∨ t.receiver = n))) := by
  cases hg : Noel.check_group_names ps gs with
  | some n =>
    obtain ⟨hnp, g, hgmem, hng⟩ := Noel.check_group_names_eq_some hg
    have hf : (gs.flatten.find? fun m => !ps.contains m) = some n :=
      Noel.check_group_names_eq_find.symm.trans hg
    refine ⟨?_, ?_, ?_, ?_, ?_⟩
    · constructor
      · intro h
        exact absurd h (by simp [Noel.load_configuration, hg])
      · intro h
        exact absurd (h.1 g hgmem n hng) hnp
    · intro out h
      exact absurd h (by simp [Noel.load_configuration, hg])
    · intro n' h'
      obtain rfl : n = n' := Option.some.inj (hf.symm.trans h')
      simp [Noel.load_configuration, hg]
    · intro hnone
      exact absurd (hf.symm.trans hnone) (by simp)
    · intro _
      exact ⟨n, "groups", by simp [Noel.load_configuration, hg], hnp,
        Or.inl ⟨rfl, g, hgmem, hng⟩⟩
  | none =>
    have hfg : (gs.flatten.find? fun m => !ps.contains m) = none :=
      Noel.check_group_names_eq_find.symm.trans hg
    cases ht : Noel.check_transaction_names ps ts with
    | some n =>
      obtain ⟨hnp, t, htm, hcase⟩ := Noel.check_transaction_names_eq_some ht
      have hft : ((ts.flatMap fun t => [t.giver, t.receiver]).find?
          fun m => !ps.contains m) = some n :=
        Noel.check_transaction_names_eq_find.symm.trans ht
      refine ⟨?_, ?_, ?_, ?_, ?_⟩
      · constructor
        · intro h
          exact absurd h (by simp [Noel.load_configuration, hg, ht])
        · intro h
          rcases hcase with hcg | hcr
          · exact absurd (hcg ▸ (h.2 t htm).1) hnp
          · exact absurd (hcr ▸ (h.2 t htm).2) hnp
      · intro out h
        exact absurd h (by simp [Noel.load_configuration, hg, ht])
      · intro n' h'
        exact absurd (hfg.symm.trans h') (by simp)
      · intro _ n' h'
        obtain rfl : n = n' := Option.some.inj (hft.symm.trans h')
        simp [Noel.load_configuration, hg, ht]
      · intro _
        exact ⟨n, "transactions", by simp [Noel.load_configuration, hg, ht], hnp,
          Or.inr ⟨rfl, t, htm, hcase⟩⟩
    | none =>
      have hft : ((ts.flatMap fun t => [t.giver, t.receiver]).find?
          fun m => !ps.contains m) = none :=
        Noel.check_transaction_names_eq_find.symm.trans ht
      refine ⟨?_, ?_, ?_, ?_, ?_⟩
      · exact iff_of_true (by simp [Noel.load_configuration, hg, ht])
          ⟨Noel.check_group_names_eq_none.mp hg, Noel.check_transaction_names_eq_none.mp ht⟩
      · intro out h
        have hok : Except.ok (ps, gs, ts) = (Except.ok out : Except String _) := by
          rw [← h]
          simp [Noel.load_configuration, hg, ht]
        exact (Except.ok.inj hok).symm
      · intro n' h'
        exact absurd (hfg.symm.trans h') (by simp)
      · intro _ n' h'
        exact absurd (hft.symm.trans h') (by simp)
      · intro h
        exact absurd ⟨Noel.check_group_names_eq_none.mp hg,
          Noel.check_transaction_names_eq_none.mp ht⟩ h

theorem load_configuration_spec_witness :
    (Noel.load_configuration ["A"] [] [] = Except.ok (["A"], [], [])) ∧
    ((["A"], [], []) = ((["A"], [], []) :
      List String × List (List String) × List Noel.Transaction)) ∧
    (Noel.load_configuration ["A"] [["A", "B"], ["C"]] [⟨"D", "A"⟩] =
      Except.error (Noel.spelling_error "B" "groups")) ∧
    (Noel.load_configuration ["A"] [["A"]] [⟨"A", "E"⟩, ⟨"F", "A"⟩] =
      Except.error (Noel.spelling_error "E" "transactions")) ∧
    (∃ n k, Noel.load_configuration ["A"] [["A", "B"], ["C"]] [⟨"D", "A"⟩] =
      Except.error (Noel.spelling_error n k) ∧ n ∉ (["A"] : List String) ∧
      ((k = "groups" ∧ ∃ g ∈ [["A", "B"], ["C"]], n ∈ g) ∨
       (k = "transactions" ∧ ∃ t ∈ [(⟨"D", "A"⟩ : Noel.Transaction)],
         t.giver = n ∨ t.receiver = n))) :=
  ⟨(load_configuration_spec ["A"] [] []).1.mpr (by decide),
   (load_configuration_spec ["A"] [] []).2.1 (["A"], [], [])
     ((load_configuration_spec ["A"] [] []).1.mpr (by decide)),
   (load_configuration_spec ["A"] [["A", "B"], ["C"]] [⟨"D", "A"⟩]).2.2.1 "B" (by decide),
   (load_configuration_spec ["A"] [["A"]] [⟨"A", "E"⟩, ⟨"F", "A"⟩]).2.2.2.1 (by decide)
     "E" (by decide),
   (load_configuration_spec ["A"] [["A", "B"], ["C"]] [⟨"D", "A"⟩]).2.2.2.2 (by decide)⟩

/-- **C7**: the random-retry construction assigns each giver a receiver
drawn (at an arbitrary random index) from the pool of receivers not yet
assigned, excluding the giver itself; when that pool is empty the whole
candidate is abandoned (`none`) and the retry loop of `main` moves on to a
fresh attempt, the failure being caught internally: the loop only ever
returns a successfully generated candidate that passes the forbidden-group
check. -/
theorem random_retry_contract
    (ps : List String) (gs : List (List String)) (pick : Nat → Nat) (picks : Nat → Nat → Nat)
    (g : String) (rest receivers : List String) (k a fuel : Nat)
    (sol rsol : List (String × String)) :
    (receivers.erase g = [] → Tirage.try_generate pick (g :: rest) receivers k = none) ∧
    (Tirage.try_generate pick (g :: rest) receivers k = some sol →
      ∃ r sol', r ∈ receivers.erase g ∧ sol = (g, r) :: sol' ∧
        Tirage.try_generate pick rest (receivers.erase r) (k + 1) = some sol') ∧
    (Tirage.try_generate_random_solution ps (picks a) = none →
      Tirage.tirage_main_loop ps gs picks a (fuel + 1) =
        Tirage.tirage_main_loop ps gs picks (a + 1) fuel) ∧
    (Tirage.tirage_main_loop ps gs picks a fuel = some rsol →
      Tirage.uses_forbidden_group rsol gs = false) := by
  refine ⟨?_, ?_, ?_, ?_⟩
  · intro h
    simp [Tirage.try_generate, h]
  · intro h
    simp only [Tirage.try_generate] at h
    by_cases hemp : (receivers.erase g).length = 0
    · rw [dif_pos hemp] at h
      exact absurd h (by simp)
    · rw [dif_neg hemp] at h
      split at h
      · exact absurd h (by simp)
      · rename_i sol' hrec
        obtain rfl := Option.some.inj h
        exact ⟨_, sol', List.get_mem _ _ _, rfl, hrec⟩
  · intro h
    simp [Tirage.tirage_main_loop, h]
  · intro h
    obtain ⟨b, -, hu⟩ := Tirage.tirage_main_loop_eq_some h
    exact hu

theorem random_retry_contract_witness :
    (Tirage.try_generate (fun _ => 0) ["A"] ["A"] 0 = none) ∧
    (∃ r sol', r ∈ (["A", "B"].erase "A") ∧
      ([("A", "B"), ("B", "A")] : List (String × String)) = ("A", r) :: sol' ∧
      Tirage.try_generate (fun _ => 0) ["B"] (["A", "B"].erase r) 1 = some sol') ∧
    (Tirage.tirage_main_loop ["A"] [] (fun _ _ => 0) 0 1 =
      Tirage.tirage_main_loop ["A"] [] (fun _ _ => 0) 1 0) ∧
    (Tirage.uses_forbidden_group [("A", "C"), ("B", "A"), ("C", "B")] [["B", "D"]] = false) := by
  refine ⟨?_, ?_, ?_, ?_⟩
  · exact (random_retry_contract [] [] (fun _ => 0) (fun _ _ => 0)
      "A" [] ["A"] 0 0 0 [] []).1 (by decide)
  · exact (random_retry_contract [] [] (fun _ => 0) (fun _ _ => 0)
      "A" ["B"] ["A", "B"] 0 0 0 [("A", "B"), ("B", "A")] []).2.1 (by decide)
  · exact (random_retry_contract ["A"] [] (fun _ => 0) (fun _ _ => 0)
      "X" [] [] 0 0 0 [] []).2.2.1 (by decide)
  · exact (random_retry_contract ["A", "B", "C"] [["B", "D"]] (fun _ => 0) (fun a _ => a)
      "X" [] [] 0 0 2 [] [("A", "C"), ("B", "A"), ("C", "B")]).2.2.2 (by decide)

namespace Noel

theorem length_get_solutions_from {c : Config} : ∀ {perms : List (List String)},
    (get_solutions_from c perms).length =
      (perms.filter fun rs => valid_solution c (mkSolution c.1 rs)).length := by
  intro perms
  induction perms with
  | nil => simp [get_solutions_from]
  | cons rs rest ih =>
    by_cases h : valid_solution c (mkSolution c.1 rs) = true
    · simp [get_solutions_from, h, List.filter_cons, ih]
    · simp [get_solutions_from, h, List.filter_cons, ih]

theorem valid_solution_no_constraints {ps : List String} {sol : List Transaction} :
    valid_solution (ps, [], []) sol = !give_to_himself sol := by
  simp [valid_solution, no_forbidden_group, no_forbidden_transaction]

theorem give_to_himself_mkSolution_eq_false {ps rs : List String} :
    give_to_himself (mkSolution ps rs) = false ↔
      ∀ (i : Nat) (h1 : i < ps.length) (h2 : i < rs.length), ps[i] ≠ rs[i] := by
  rw [give_to_himself_eq_false]
  constructor
  · intro h i h1 h2 heq
    have hlen : i < (mkSolution ps rs).length := by
      simp [mkSolution, List.length_zipWith]
      omega
    have heq2 : (mkSolution ps rs)[i] = ⟨ps[i], rs[i]⟩ := List.getElem_zipWith
    exact h _ (heq2 ▸ List.getElem_mem hlen) heq
  · intro h t ht heq
    obtain ⟨i, hi, hti⟩ := List.mem_iff_getElem.mp ht
    have hlen : (mkSolution ps rs).length = min ps.length rs.length := by
      simp [mkSolution, List.length_zipWith]
    have h1 : i < ps.length := by omega
    have h2 : i < rs.length := by omega
    have heq2 : (mkSolution ps rs)[i] = (⟨ps[i], rs[i]⟩ : Transaction) := List.getElem_zipWith
    rw [heq2] at hti
    subst hti
    exact h i h1 h2 heq

end Noel

/-- **C4** (counterexample): on four unconstrained participants the
exhaustive search does not yield `(N − 1)! = 3! = 6` solutions, as the
specification states: it yields one solution per derangement of four
elements, of which there are nine. -/
theorem unconstrained_count_not_pred_factorial :
    ¬ ((Noel.get_solutions (["A", "B", "C", "D"], [], [])).length = Nat.factorial (4 - 1)) := by
  decide

/-- **C4** (amended): for every duplicate-free participant list, the
exhaustive strategy with no forbidden groups and no forbidden
transactions, collecting all solutions, yields exactly `numDerangements N`
valid solutions — the classic derangement count, which is 9 for `N = 4`
(not `(N − 1)!`). -/
theorem unconstrained_count_eq_numDerangements (ps : List String) (hnd : ps.Nodup) :
    (Noel.get_solutions (ps, [], [])).length = numDerangements ps.length := by
  have hstep : (Noel.get_solutions (ps, [], [])).length =
      (ps.permutations'.filter fun rs => !Noel.give_to_himself (Noel.mkSolution ps rs)).length := by
    rw [Noel.get_solutions, Noel.length_get_solutions_from]
    congr 1
    apply List.filter_congr
    intro rs _
    exact Noel.valid_solution_no_constraints
  rw [hstep]
  have hnodup' : ps.permutations'.Nodup :=
    ((List.permutations_perm_permutations' ps).nodup_iff).mp (List.nodup_permutations ps hnd)
  have hfn : (ps.permutations'.filter
      fun rs => !Noel.give_to_himself (Noel.mkSolution ps rs)).Nodup :=
    hnodup'.filter _
  rw [← List.toFinset_card_of_nodup hfn]
  have hcardB : (Finset.univ.filter fun σ : Equiv.Perm (Fin ps.length) => ∀ i, σ i ≠ i).card
      = numDerangements ps.length := by
    rw [← card_derangements_fin_eq_numDerangements, ← Fintype.card_coe]
    exact Fintype.card_congr (Equiv.subtypeEquivRight fun σ => by
      simp [derangements, Finset.mem_filter, Set.mem_setOf_eq])
  rw [← hcardB]
  apply Eq.symm
  refine Finset.card_bij (fun σ _ => List.ofFn fun i => ps.get (σ i)) ?_ ?_ ?_
  · intro σ hσ
    have hσ' : ∀ i, σ i ≠ i := by
      simpa using (Finset.mem_filter.mp hσ).2
    rw [List.mem_toFinset, List.mem_filter]
    constructor
    · apply List.mem_permutations'.mpr
      have hperm : (List.ofFn fun i => ps.get (σ i)).Perm (List.ofFn ps.get) :=
        Equiv.Perm.ofFn_comp_perm σ ps.get
      rwa [List.ofFn_get] at hperm
    · show (!Noel.give_to_himself
        (Noel.mkSolution ps (List.ofFn fun i => ps.get (σ i)))) = true
      rw [Bool.not_eq_true', Noel.give_to_himself_mkSolution_eq_false]
      intro i h1 h2 heq
      have h2' : i < ps.length := by simpa using h2
      have hofn : (List.ofFn fun j => ps.get (σ j))[i] = ps.get (σ ⟨i, h2'⟩) := by
        simp [List.getElem_ofFn]
      rw [hofn] at heq
      have heq' : ps.get ⟨i, h1⟩ = ps.get (σ ⟨i, h2'⟩) := by
        simpa [List.get_eq_getElem] using heq
      have hfix : (⟨i, h1⟩ : Fin ps.length) = σ ⟨i, h2'⟩ := hnd.get_inj_iff.mp heq'
      exact hσ' ⟨i, h2'⟩ hfix.symm
  · intro σ1 h1 σ2 h2 heq
    have hfun := List.ofFn_injective heq
    apply Equiv.ext
    intro i
    exact hnd.get_inj_iff.mp (congrFun hfun i)
  · intro rs hrs
    rw [List.mem_toFinset, List.mem_filter] at hrs
    obtain ⟨hmem, hpred⟩ := hrs
    have hperm : rs.Perm ps := List.mem_permutations'.mp hmem
    have hlen : rs.length = ps.length := hperm.length_eq
    have hrs_nd : rs.Nodup := (hperm.nodup_iff).mpr hnd
    have hder : Noel.give_to_himself (Noel.mkSolution ps rs) = false := by
      have hx : (!Noel.give_to_himself (Noel.mkSolution ps rs)) = true := hpred
      rwa [Bool.not_eq_true'] at hx
    have hne := Noel.give_to_himself_mkSolution_eq_false.mp hder
    have hmem_ps : ∀ i : Fin ps.length, rs.get (Fin.cast hlen.symm i) ∈ ps := fun i =>
      hperm.subset (List.get_mem _ _ _)
    have hginj : Function.Injective (fun i : Fin ps.length =>
        (⟨ps.indexOf (rs.get (Fin.cast hlen.symm i)),
          List.indexOf_lt_length.mpr (hmem_ps i)⟩ : Fin ps.length)) := by
      intro i j hij
      have hval : ps.indexOf (rs.get (Fin.cast hlen.symm i)) =
          ps.indexOf (rs.get (Fin.cast hlen.symm j)) := congrArg Fin.val hij
      have hget : rs.get (Fin.cast hlen.symm i) = rs.get (Fin.cast hlen.symm j) :=
        (List.indexOf_inj (hmem_ps i) (hmem_ps j)).mp hval
      have hcast := hrs_nd.get_inj_iff.mp hget
      exact Fin.ext (by simpa using congrArg Fin.val hcast)
    refine ⟨Equiv.ofBijective _ (Finite.injective_iff_bijective.mp hginj), ?_, ?_⟩
    · rw [Finset.mem_filter]
      refine ⟨Finset.mem_univ _, ?_⟩
      intro i hcon
      have happ : ps.get (Equiv.ofBijective _ (Finite.injective_iff_bijective.mp hginj) i)
          = rs.get (Fin.cast hlen.symm i) := List.indexOf_get _
      rw [hcon] at happ
      have hi2 : i.1 < rs.length := by omega
      apply hne i.1 i.2 hi2
      simpa [List.get_eq_getElem] using happ
    · apply List.ext_getElem
      · simp [hlen]
      · intro i hi1 hi2
        rw [List.getElem_ofFn]
        have happ : ps.get (Equiv.ofBijective _ (Finite.injective_iff_bijective.mp hginj)
              ⟨i, by simpa using hi1⟩)
            = rs.get (Fin.cast hlen.symm ⟨i, by simpa using hi1⟩) := List.indexOf_get _
        rw [happ]
        simp [List.get_eq_getElem]

theorem unconstrained_count_eq_numDerangements_witness :
    (["A", "B", "C", "D"] : List String).Nodup ∧
    (Noel.get_solutions (["A", "B", "C", "D"], [], [])).length = numDerangements 4 ∧
    numDerangements 4 = 9 :=
  ⟨by decide,
   unconstrained_count_eq_numDerangements ["A", "B", "C", "D"] (by decide),
   by decide⟩
